import Mathlib

/-!
Verification of the palindromic radius profile algorithms from
`longest_palindrome.py`: the linear-time engine `fast_longest_palindromes`
and the quadratic reference oracle `naive_longest_palindromes`.

The Python code is embedded shallowly.  List indexing in the fast engine is
modelled with Python semantics (negative indices wrap once from the end,
anything still out of range is an error), so the engine lives in `Option`:
`none` corresponds to an uncaught `IndexError`, which we prove never happens.
-/

set_option linter.unusedSectionVars false

namespace LongestPalindromes

variable {α : Type} [DecidableEq α]

/-- Center expansion of the oracle, translated from the `while` loop of
`naive_longest_palindromes`: starting from the candidate interval
`[st, e)`, grow while `start > 0 and end < len_seq and seq[start-1] == seq[end]`,
and return the final width `end - start`.  The first argument is matched so
that the recursion is structural. -/
def naiveExpand (s : List α) : Nat → Nat → Nat
  | 0, e => e
  | st + 1, e =>
    if e < s.length ∧ s[st]? = s[e]? then naiveExpand s st (e + 1)
    else e - (st + 1)

/-- The quadratic reference oracle `naive_longest_palindromes`: one entry per
center index `k` in `0 .. 2n`, each computed by independent center expansion
from `start = k // 2`, `end = start + k % 2`. -/
def naiveLongestPalindromes (s : List α) : List Nat :=
  (List.range (2 * s.length + 1)).map fun k => naiveExpand s (k / 2) (k / 2 + k % 2)

/-- Python list subscription on the profile list: a negative index wraps once
from the end, and any index still out of range raises (here: `none`). -/
def pyGet (l : List Nat) (j : Int) : Option Nat :=
  if j < 0 then
    if 0 ≤ j + l.length then l[(j + (l.length : Int)).toNat]? else none
  else l[j.toNat]?

/-- The backward mirrored-copy scan of `fast_longest_palindromes` (the inner
`for j in range(start, end, -1)` loop).  `e` is the exclusive lower bound
`end`.  On the exact-match path (`best_lengths[j] == d`) it stops and returns
the new working radius `d = j - end - 1`; otherwise it appends
`min(d, best_lengths[j])` and continues.  The returned radius is packaged with
the arithmetic bound `d ≤ j - e - 1` needed for termination of the outer
loop. -/
def innerLoop (best : List Nat) (e j : Int) :
    Option (List Nat × Option {d : Nat // (d : Int) + e + 1 ≤ j}) :=
  if h : j ≤ e then some (best, none)
  else
    match pyGet best j with
    | none => none
    | some bj =>
      if hb : (bj : Int) = j - e - 1 then some (best, some ⟨bj, by omega⟩)
      else
        match innerLoop (best ++ [min (j - e - 1).toNat bj]) e (j - 1) with
        | none => none
        | some (b, none) => some (b, none)
        | some (b, some d) => some (b, some ⟨d.1, by have := d.2; omega⟩)
  termination_by (j - e).toNat
  decreasing_by omega

/-- The main `while i < len_seq` loop of `fast_longest_palindromes`, carrying
the cursor `i`, the working radius `pal_len` and the emitted profile.  The
three branches are the extension path, the exact-match break path (inner loop
returned a new radius, the cursor does not move) and the normal-completion
path (`pal_len = 1`, cursor advances). -/
def mainLoop (s : List α) (i pal : Nat) (best : List Nat) : Option (Nat × List Nat) :=
  if i < s.length then
    if pal < i ∧ s[i - pal - 1]? = s[i]? then
      mainLoop s (i + 1) (pal + 2) best
    else
      match innerLoop (best ++ [pal]) (((best ++ [pal]).length : Int) - 2 - pal)
          (((best ++ [pal]).length : Int) - 2) with
      | none => none
      | some (b, some d) => mainLoop s i d.1 b
      | some (b, none) => mainLoop s (i + 1) 1 b
  else some (pal, best)
  termination_by (s.length - i, pal)
  decreasing_by
  · exact Prod.Lex.left _ _ (by omega)
  · exact Prod.Lex.right _ (by have := d.2; omega)
  · exact Prod.Lex.left _ _ (by omega)

/-- The closing copy loop of `fast_longest_palindromes`: after the main loop,
append the final `pal_len` and run the same mirrored copy (without the break
check) until the profile reaches `2 * len_seq + 1` entries. -/
def finalLoop (best : List Nat) (e j : Int) : Option (List Nat) :=
  if j ≤ e then some best
  else
    match pyGet best j with
    | none => none
    | some bj => finalLoop (best ++ [min (j - e - 1).toNat bj]) e (j - 1)
  termination_by (j - e).toNat
  decreasing_by omega

/-- The linear-time engine `fast_longest_palindromes`: run the main loop from
`i = 0`, `pal_len = 0` on the empty profile, append the final `pal_len`, and
pad with the closing copy loop (`start = size - 2`,
`end = start - (2 * len_seq + 1 - size)`). -/
def fastLongestPalindromes (s : List α) : Option (List Nat) :=
  match mainLoop s 0 0 [] with
  | none => none
  | some (pal, best) =>
    finalLoop (best ++ [pal])
      ((((best ++ [pal]).length : Int) - 2) - ((2 * s.length + 1 : Int) - (best ++ [pal]).length))
      (((best ++ [pal]).length : Int) - 2)

/-- `s[a:b]` is a palindrome: entries at positions mirrored around the center
of the interval `[a, b)` agree.  The symmetric formulation avoids natural
subtraction. -/
def IsPal (s : List α) (a b : Nat) : Prop :=
  ∀ x y, a ≤ x → a ≤ y → x + y + 1 = a + b → s[x]? = s[y]?

instance (s : List α) (a b : Nat) : Decidable (IsPal s a b) := by
  unfold IsPal
  exact decidable_of_iff
    (∀ x ∈ List.range (a + b), ∀ y ∈ List.range (a + b),
      a ≤ x → a ≤ y → x + y + 1 = a + b → s[x]? = s[y]?)
    (by
      constructor
      · intro h x y hx hy hs
        exact h x (by simp only [List.mem_range]; omega) y (by simp only [List.mem_range]; omega)
          hx hy hs
      · intro h x hxm y hym hx hy hs
        exact h x y hx hy hs)

/-- The value the oracle records for center index `k`: the width reached by
center expansion from `start = k // 2`, `end = start + k % 2`. -/
def palLen (s : List α) (k : Nat) : Nat :=
  naiveExpand s (k / 2) (k / 2 + k % 2)

/-- The substring of `s` at positions `[a, a + len)`. -/
def subseq (s : List α) (a len : Nat) : List α :=
  (s.drop a).take len

/-- One iteration of the main loop of `fast_longest_palindromes`, as a
relation on states `(i, pal_len, best_lengths)`: the extension path, the
exact-match break path, and the normal-completion path. -/
inductive MainStep (s : List α) : Nat × Nat × List Nat → Nat × Nat × List Nat → Prop where
  | extend {i pal : Nat} {best : List Nat} :
      i < s.length → pal < i → s[i - pal - 1]? = s[i]? →
      MainStep s (i, pal, best) (i + 1, pal + 2, best)
  | mirrorBreak {i pal : Nat} {best b : List Nat}
      {d : {d : Nat // (d : Int) + (((best ++ [pal]).length : Int) - 2 - pal) + 1 ≤
        ((best ++ [pal]).length : Int) - 2}} :
      i < s.length → ¬(pal < i ∧ s[i - pal - 1]? = s[i]?) →
      innerLoop (best ++ [pal]) (((best ++ [pal]).length : Int) - 2 - pal)
        (((best ++ [pal]).length : Int) - 2) = some (b, some d) →
      MainStep s (i, pal, best) (i, d.1, b)
  | advance {i pal : Nat} {best b : List Nat} :
      i < s.length → ¬(pal < i ∧ s[i - pal - 1]? = s[i]?) →
      innerLoop (best ++ [pal]) (((best ++ [pal]).length : Int) - 2 - pal)
        (((best ++ [pal]).length : Int) - 2) = some (b, none) →
      MainStep s (i, pal, best) (i + 1, 1, b)

/-- States of the main loop of `fast_longest_palindromes` reachable from the
initial state `i = 0`, `pal_len = 0`, `best_lengths = []`. -/
inductive MainReaches (s : List α) : Nat × Nat × List Nat → Prop where
  | init : MainReaches s (0, 0, [])
  | step {st st' : Nat × Nat × List Nat} :
      MainReaches s st → MainStep s st st' → MainReaches s st'

/-- The invariant of the main loop of `fast_longest_palindromes`: the working
radius never exceeds the cursor, the cursor stays in bounds, the emitted
profile has exactly `2 * i - pal_len` entries, every emitted entry is the
oracle's value, and the `pal_len` elements ending just before the cursor form
a palindrome. -/
def MainInv (s : List α) (i pal : Nat) (best : List Nat) : Prop :=
  pal ≤ i ∧ i ≤ s.length ∧ best.length + pal = 2 * i ∧
    (∀ k, k < best.length → best[k]? = some (palLen s k)) ∧ IsPal s (i - pal) i

/-! ### Basic palindrome interval theory -/

theorem isPal_nested {s : List α} {a b a2 b2 : Nat} (h : IsPal s a b)
    (ha : a ≤ a2) (hsum : a2 + b2 = a + b) : IsPal s a2 b2 := by
  intro x y hx hy hs
  exact h x y (by omega) (by omega) (by omega)

theorem isPal_extend {s : List α} {a b : Nat} (h : IsPal s a b) (ha : 1 ≤ a)
    (he : s[a - 1]? = s[b]?) : IsPal s (a - 1) (b + 1) := by
  intro x y hx hy hs
  rcases Nat.lt_or_ge x a with hxa | hxa
  · have hx1 : x = a - 1 := by omega
    have hy1 : y = b := by omega
    rw [hx1, hy1]; exact he
  · rcases Nat.lt_or_ge y a with hya | hya
    · have hy1 : y = a - 1 := by omega
      have hx1 : x = b := by omega
      rw [hx1, hy1]; exact he.symm
    · exact h x y hxa hya (by omega)

theorem isPal_mirror {s : List α} {A B a b : Nat} (hbig : IsPal s A B)
    (hinner : IsPal s a b) (hAa : A ≤ a) (hbB : b ≤ B) (hab : a ≤ b) :
    IsPal s (A + B - b) (A + B - a) := by
  intro x y hx hy hs
  calc s[x]? = s[A + B - 1 - x]? := hbig x (A + B - 1 - x) (by omega) (by omega) (by omega)
    _ = s[a + b - 1 - (A + B - 1 - x)]? :=
        hinner (A + B - 1 - x) (a + b - 1 - (A + B - 1 - x)) (by omega) (by omega) (by omega)
    _ = s[y]? := (hbig y (a + b - 1 - (A + B - 1 - x)) (by omega) (by omega) (by omega)).symm

/-! ### Characterization of the oracle's center expansion -/

theorem naiveExpand_spec (s : List α) :
    ∀ st e, st ≤ e → e ≤ s.length → IsPal s st e →
    ∃ a b, a + b = st + e ∧ a ≤ st ∧ a ≤ b ∧ b ≤ s.length ∧
      b - a = naiveExpand s st e ∧ IsPal s a b ∧
      (0 < a → b < s.length → ¬ s[a - 1]? = s[b]?) := by
  intro st
  induction st with
  | zero =>
    intro e he1 he2 hp
    refine ⟨0, e, by omega, by omega, by omega, he2, ?_, hp, by omega⟩
    simp [naiveExpand]
  | succ st ih =>
    intro e he1 he2 hp
    by_cases hc : e < s.length ∧ s[st]? = s[e]?
    · rw [show naiveExpand s (st + 1) e = naiveExpand s st (e + 1) by simp [naiveExpand, hc]]
      have hp' : IsPal s st (e + 1) := by
        have h2 := isPal_extend hp (by omega) (by simpa using hc.2)
        simpa using h2
      obtain ⟨a, b, h1, h2, h3, h4, h5, h6, h7⟩ := ih (e + 1) (by omega) (by omega) hp'
      exact ⟨a, b, by omega, by omega, h3, h4, h5, h6, h7⟩
    · rw [show naiveExpand s (st + 1) e = e - (st + 1) by simp [naiveExpand, hc]]
      refine ⟨st + 1, e, rfl, le_refl _, he1, he2, rfl, hp, ?_⟩
      intro h0 hb heq
      exact hc ⟨hb, by simpa using heq⟩

theorem naiveExpand_le (s : List α) :
    ∀ st e, st ≤ e → e ≤ s.length →
    ∀ a b, a + b = st + e → a ≤ b → b ≤ s.length → IsPal s a b →
    b - a ≤ naiveExpand s st e := by
  intro st
  induction st with
  | zero =>
    intro e _ _ a b h1 h2 _ _
    simp only [naiveExpand]
    omega
  | succ st ih =>
    intro e he1 he2 a b h1 h2 h3 hp
    by_cases hc : e < s.length ∧ s[st]? = s[e]?
    · rw [show naiveExpand s (st + 1) e = naiveExpand s st (e + 1) by simp [naiveExpand, hc]]
      exact ih (e + 1) (by omega) (by omega) a b (by omega) h2 h3 hp
    · rw [show naiveExpand s (st + 1) e = e - (st + 1) by simp [naiveExpand, hc]]
      by_contra hgt
      push_neg at hgt
      have hself := hp st e (by omega) (by omega) (by omega)
      exact hc ⟨by omega, hself⟩

/-! ### The maximal radius `palLen` -/

theorem palLen_spec {s : List α} {k : Nat} (hk : k ≤ 2 * s.length) :
    ∃ a b, a + b = k ∧ a ≤ b ∧ b ≤ s.length ∧ b - a = palLen s k ∧ IsPal s a b ∧
      (0 < a → b < s.length → ¬ s[a - 1]? = s[b]?) := by
  have h1 : k / 2 + k % 2 ≤ s.length := by omega
  have h2 : k / 2 ≤ k / 2 + k % 2 := by omega
  have hp : IsPal s (k / 2) (k / 2 + k % 2) := by
    intro x y hx hy hs
    have hxy : x = y := by omega
    rw [hxy]
  obtain ⟨a, b, g1, g2, g3, g4, g5, g6, g7⟩ := naiveExpand_spec s (k / 2) (k / 2 + k % 2) h2 h1 hp
  exact ⟨a, b, by omega, g3, g4, g5, g6, g7⟩

theorem palLen_ub {s : List α} {a b : Nat} (hab : a ≤ b) (hb : b ≤ s.length)
    (hp : IsPal s a b) : b - a ≤ palLen s (a + b) := by
  have h1 : (a + b) / 2 + (a + b) % 2 ≤ s.length := by omega
  exact naiveExpand_le s ((a + b) / 2) ((a + b) / 2 + (a + b) % 2) (by omega) h1 a b
    (by omega) hab hb hp

theorem palLen_bounds {s : List α} {k : Nat} (hk : k ≤ 2 * s.length) :
    palLen s k ≤ k ∧ k + palLen s k ≤ 2 * s.length ∧ palLen s k % 2 = k % 2 := by
  obtain ⟨a, b, h1, h2, h3, h4, _, _⟩ := palLen_spec hk
  omega

theorem isPal_of_le {s : List α} {k r : Nat} (hk : k ≤ 2 * s.length)
    (hr : r ≤ palLen s k) (hpar : r % 2 = k % 2) :
    IsPal s ((k - r) / 2) ((k + r) / 2) ∧ (k - r) / 2 + (k + r) / 2 = k ∧
      (k + r) / 2 ≤ s.length ∧ (k - r) / 2 + r = (k + r) / 2 := by
  obtain ⟨a, b, h1, h2, h3, h4, h5, _⟩ := palLen_spec hk
  have ha : a ≤ (k - r) / 2 := by omega
  have hsum : (k - r) / 2 + (k + r) / 2 = k := by omega
  exact ⟨isPal_nested h5 ha (by omega), hsum, by omega, by omega⟩

theorem palLen_eq_of_blocked {s : List α} {a b : Nat} (hab : a ≤ b) (hb : b ≤ s.length)
    (hp : IsPal s a b) (hblock : ¬(0 < a ∧ b < s.length ∧ s[a - 1]? = s[b]?)) :
    palLen s (a + b) = b - a := by
  have hub := palLen_ub hab hb hp
  by_contra hne
  have hk : a + b ≤ 2 * s.length := by omega
  obtain ⟨hle, hhi, hpar⟩ := palLen_bounds hk
  have h2 : b - a + 2 ≤ palLen s (a + b) := by omega
  obtain ⟨hpal2, hsum2, hbn2, hw2⟩ := isPal_of_le hk h2 (by omega)
  have hA : (a + b - (b - a + 2)) / 2 = a - 1 := by omega
  have hB : (a + b + (b - a + 2)) / 2 = b + 1 := by omega
  rw [hA, hB] at hpal2
  rw [hB] at hbn2
  apply hblock
  refine ⟨by omega, by omega, ?_⟩
  exact hpal2 (a - 1) b (le_refl _) (by omega) (by omega)

/-! ### The mirroring lemmas behind the linear algorithm -/

theorem palLen_mirror_fwd {s : List α} {A B t r : Nat} (hAB : A ≤ B) (hB : B ≤ s.length)
    (hbig : IsPal s A B) (ht1 : 1 ≤ t) (ht2 : t ≤ B - A)
    (hr : r ≤ palLen s (A + B - t)) (hrd : r ≤ B - A - t)
    (hpar : r % 2 = (A + B - t) % 2) :
    r ≤ palLen s (A + B + t) := by
  have hk : A + B - t ≤ 2 * s.length := by omega
  obtain ⟨hpal, hsum, hbn, hw⟩ := isPal_of_le hk hr hpar
  have hA0 : A ≤ (A + B - t - r) / 2 := by omega
  have hB0 : (A + B - t + r) / 2 ≤ B := by omega
  have hm := isPal_mirror hbig hpal hA0 hB0 (by omega)
  have hub := palLen_ub (a := A + B - (A + B - t + r) / 2) (b := A + B - (A + B - t - r) / 2)
    (by omega) (by omega) hm
  have hcen : (A + B - (A + B - t + r) / 2) + (A + B - (A + B - t - r) / 2) = A + B + t := by
    omega
  rw [hcen] at hub
  omega

theorem palLen_mirror_back {s : List α} {A B t r : Nat} (hAB : A ≤ B) (hB : B ≤ s.length)
    (hbig : IsPal s A B) (ht1 : 1 ≤ t) (ht2 : t ≤ B - A)
    (hr : r ≤ palLen s (A + B + t)) (hrd : r ≤ B - A - t)
    (hpar : r % 2 = (A + B + t) % 2) :
    r ≤ palLen s (A + B - t) := by
  have hk : A + B + t ≤ 2 * s.length := by omega
  obtain ⟨hpal, hsum, hbn, hw⟩ := isPal_of_le hk hr hpar
  have hA0 : A ≤ (A + B + t - r) / 2 := by omega
  have hB0 : (A + B + t + r) / 2 ≤ B := by omega
  have hm := isPal_mirror hbig hpal hA0 hB0 (by omega)
  have hub := palLen_ub (a := A + B - (A + B + t + r) / 2) (b := A + B - (A + B + t - r) / 2)
    (by omega) (by omega) hm
  have hcen : (A + B - (A + B + t + r) / 2) + (A + B - (A + B + t - r) / 2) = A + B - t := by
    omega
  rw [hcen] at hub
  omega

theorem palLen_copy_lt {s : List α} {A B t : Nat} (hAB : A ≤ B) (hB : B ≤ s.length)
    (hbig : IsPal s A B) (ht1 : 1 ≤ t) (ht2 : t ≤ B - A)
    (hlt : palLen s (A + B - t) < B - A - t) :
    palLen s (A + B + t) = palLen s (A + B - t) := by
  have hk1 : A + B - t ≤ 2 * s.length := by omega
  have hk2 : A + B + t ≤ 2 * s.length := by omega
  obtain ⟨hle1, hhi1, hpar1⟩ := palLen_bounds hk1
  obtain ⟨hle2, hhi2, hpar2⟩ := palLen_bounds hk2
  have hge : palLen s (A + B - t) ≤ palLen s (A + B + t) :=
    palLen_mirror_fwd hAB hB hbig ht1 ht2 (le_refl _) (by omega) hpar1
  by_contra hne
  have h2 : palLen s (A + B - t) + 2 ≤ palLen s (A + B + t) := by omega
  have hback := palLen_mirror_back hAB hB hbig ht1 ht2 h2 (by omega) (by omega)
  omega

theorem palLen_copy_gt {s : List α} {A B t : Nat} (hAB : A ≤ B) (hB : B ≤ s.length)
    (hbig : IsPal s A B) (hmax : palLen s (A + B) = B - A)
    (ht1 : 1 ≤ t) (ht2 : t ≤ B - A)
    (hgt : B - A - t < palLen s (A + B - t)) :
    palLen s (A + B + t) = B - A - t := by
  have hk1 : A + B - t ≤ 2 * s.length := by omega
  have hk2 : A + B + t ≤ 2 * s.length := by omega
  obtain ⟨hle1, hhi1, hpar1⟩ := palLen_bounds hk1
  obtain ⟨hle2, hhi2, hpar2⟩ := palLen_bounds hk2
  have hge : B - A - t ≤ palLen s (A + B + t) :=
    palLen_mirror_fwd hAB hB hbig ht1 ht2 (by omega) (le_refl _) (by omega)
  by_contra hne
  have h2 : B - A - t + 2 ≤ palLen s (A + B + t) := by omega
  obtain ⟨hpalR, hsumR, hbnR, hwR⟩ := isPal_of_le hk2 h2 (by omega)
  have h2L : B - A - t + 2 ≤ palLen s (A + B - t) := by omega
  obtain ⟨hpalL, hsumL, hbnL, hwL⟩ := isPal_of_le hk1 h2L (by omega)
  have hA1 : 1 ≤ A := by omega
  have hRa : (A + B + t - (B - A - t + 2)) / 2 = A + t - 1 := by omega
  have hRb : (A + B + t + (B - A - t + 2)) / 2 = B + 1 := by omega
  have hLa : (A + B - t - (B - A - t + 2)) / 2 = A - 1 := by omega
  have hLb : (A + B - t + (B - A - t + 2)) / 2 = B - t + 1 := by omega
  rw [hRa, hRb] at hpalR
  rw [hRb] at hbnR
  rw [hLa, hLb] at hpalL
  have hE1 : s[A + t - 1]? = s[B]? := hpalR (A + t - 1) B (le_refl _) (by omega) (by omega)
  have hE2 : s[A - 1]? = s[B - t]? := hpalL (A - 1) (B - t) (le_refl _) (by omega) (by omega)
  have hE3 : s[A + t - 1]? = s[B - t]? := hbig (A + t - 1) (B - t) (by omega) (by omega) (by omega)
  have hext : IsPal s (A - 1) (B + 1) := isPal_extend hbig hA1 (by rw [hE2, ← hE3]; exact hE1)
  have hub := palLen_ub (a := A - 1) (b := B + 1) (by omega) (by omega) hext
  have hAB1 : (A - 1) + (B + 1) = A + B := by omega
  rw [hAB1] at hub
  omega

theorem palLen_final {s : List α} {A t : Nat} (hA : A ≤ s.length)
    (hbig : IsPal s A s.length) (ht1 : 1 ≤ t) (ht2 : t ≤ s.length - A) :
    palLen s (A + s.length + t) =
      min (s.length - A - t) (palLen s (A + s.length - t)) := by
  have hk1 : A + s.length - t ≤ 2 * s.length := by omega
  have hk2 : A + s.length + t ≤ 2 * s.length := by omega
  obtain ⟨hle1, hhi1, hpar1⟩ := palLen_bounds hk1
  obtain ⟨hle2, hhi2, hpar2⟩ := palLen_bounds hk2
  rcases Nat.lt_or_ge (palLen s (A + s.length - t)) (s.length - A - t) with hlt | hge
  · rw [palLen_copy_lt hA (le_refl _) hbig ht1 (by omega) hlt]
    omega
  · have hged : s.length - A - t ≤ palLen s (A + s.length + t) :=
      palLen_mirror_fwd hA (le_refl _) hbig ht1 (by omega) hge (le_refl _) (by omega)
    omega

theorem isPal_break_mirror {s : List α} {A B t : Nat} (hAB : A ≤ B) (hB : B ≤ s.length)
    (hbig : IsPal s A B) (ht1 : 1 ≤ t) (ht2 : t ≤ B - A)
    (hd : B - A - t ≤ palLen s (A + B - t)) :
    IsPal s (A + t) B := by
  have hk : A + B - t ≤ 2 * s.length := by omega
  obtain ⟨_, _, hpar1⟩ := palLen_bounds hk
  obtain ⟨hpal, hsum, hbn, hw⟩ := isPal_of_le hk hd (by omega)
  have ha : (A + B - t - (B - A - t)) / 2 = A := by omega
  have hb : (A + B - t + (B - A - t)) / 2 = B - t := by omega
  rw [ha, hb] at hpal
  have hm := isPal_mirror hbig hpal (le_refl _) (by omega) (by omega)
  have h1 : A + B - (B - t) = A + t := by omega
  have h2 : A + B - A = B := by omega
  rw [h1, h2] at hm
  exact hm

/-! ### Unfolding equations for the loops of the fast engine -/

theorem pyGet_nonneg (l : List Nat) (j : Int) (h : 0 ≤ j) : pyGet l j = l[j.toNat]? := by
  unfold pyGet
  rw [if_neg (by omega)]

theorem innerLoop_stop {best : List Nat} {e j : Int} (h : j ≤ e) :
    innerLoop best e j = some (best, none) := by
  rw [innerLoop]
  exact dif_pos h

theorem innerLoop_brk {best : List Nat} {e j : Int} {bj : Nat} (h : ¬ j ≤ e)
    (ha : pyGet best j = some bj) (hb : (bj : Int) = j - e - 1) :
    innerLoop best e j = some (best, some ⟨bj, by omega⟩) := by
  rw [innerLoop, dif_neg h, ha]
  exact dif_pos hb

theorem innerLoop_copy {best : List Nat} {e j : Int} {bj : Nat} (h : ¬ j ≤ e)
    (ha : pyGet best j = some bj) (hb : ¬ (bj : Int) = j - e - 1) :
    innerLoop best e j =
      match innerLoop (best ++ [min (j - e - 1).toNat bj]) e (j - 1) with
      | none => none
      | some (b, none) => some (b, none)
      | some (b, some d) => some (b, some ⟨d.1, by have := d.2; omega⟩) := by
  rw [innerLoop, dif_neg h, ha]
  exact dif_neg hb

theorem finalLoop_stop {best : List Nat} {e j : Int} (h : j ≤ e) :
    finalLoop best e j = some best := by
  rw [finalLoop]
  exact if_pos h

theorem finalLoop_step {best : List Nat} {e j : Int} {bj : Nat} (h : ¬ j ≤ e)
    (ha : pyGet best j = some bj) :
    finalLoop best e j = finalLoop (best ++ [min (j - e - 1).toNat bj]) e (j - 1) := by
  rw [finalLoop, if_neg h, ha]

theorem mainLoop_exit {s : List α} {i pal : Nat} {best : List Nat} (h : ¬ i < s.length) :
    mainLoop s i pal best = some (pal, best) := by
  rw [mainLoop]
  exact if_neg h

theorem mainLoop_extend {s : List α} {i pal : Nat} {best : List Nat} (h1 : i < s.length)
    (h2 : pal < i ∧ s[i - pal - 1]? = s[i]?) :
    mainLoop s i pal best = mainLoop s (i + 1) (pal + 2) best := by
  rw [mainLoop, if_pos h1]
  exact if_pos h2

theorem mainLoop_emit {s : List α} {i pal : Nat} {best : List Nat} (h1 : i < s.length)
    (h2 : ¬(pal < i ∧ s[i - pal - 1]? = s[i]?)) :
    mainLoop s i pal best =
      match innerLoop (best ++ [pal]) (((best ++ [pal]).length : Int) - 2 - pal)
          (((best ++ [pal]).length : Int) - 2) with
      | none => none
      | some (b, some d) => mainLoop s i d.1 b
      | some (b, none) => mainLoop s (i + 1) 1 b := by
  rw [mainLoop, if_pos h1]
  exact if_neg h2

/-! ### Specification of the inner mirrored-copy loop

The loop is entered right after the maximal palindrome `[A, B)` has been
emitted, so the profile holds `A + B + 1` entries, all equal to the oracle's
values.  Position `j = (A + B) - t` of the scan mirrors to profile index
`(A + B) + t`. -/

theorem innerLoop_spec {s : List α} {A B : Nat} (hAB : A ≤ B) (hB : B ≤ s.length)
    (hbig : IsPal s A B) (hmax : palLen s (A + B) = B - A) :
    ∀ fuel t b (e j : Int), (B - A) + 1 - t = fuel → 1 ≤ t → t ≤ (B - A) + 1 →
    e = (A + B : Int) - 1 - (B - A) →
    j = (A + B : Int) - t →
    b.length = (A + B) + t →
    (∀ k, k < b.length → b[k]? = some (palLen s k)) →
    ∃ r, innerLoop b e j = some r ∧
      ((∃ b2, r = (b2, none) ∧ b2.length = (A + B) + (B - A) + 1 ∧
          ∀ k, k < b2.length → b2[k]? = some (palLen s k)) ∨
       (∃ b2 t2 dd, r = (b2, some dd) ∧ dd.val = B - A - t2 ∧ t ≤ t2 ∧ t2 ≤ B - A ∧
          1 ≤ t2 ∧ b2.length = (A + B) + t2 ∧
          (∀ k, k < b2.length → b2[k]? = some (palLen s k)) ∧
          palLen s (A + B - t2) = B - A - t2 ∧ IsPal s (A + t2) B)) := by
  intro fuel
  induction fuel with
  | zero =>
    intro t b e j hfuel h1 h2 he hj h3 h4
    have ht : t = (B - A) + 1 := by omega
    subst ht
    exact ⟨(b, none), innerLoop_stop (by omega), Or.inl ⟨b, rfl, by omega, h4⟩⟩
  | succ fuel ih =>
    intro t b e j hfuel h1 h2 he hj h3 h4
    have ht : t ≤ B - A := by omega
    have hguard : ¬(j ≤ e) := by omega
    have haccess : pyGet b j = some (palLen s (A + B - t)) := by
      rw [pyGet_nonneg _ _ (by omega)]
      rw [show j.toNat = A + B - t by omega]
      exact h4 _ (by omega)
    by_cases hNat : palLen s (A + B - t) = B - A - t
    · -- exact-match break: the scanned palindrome touches the left edge
      have hbInt : ((palLen s (A + B - t) : Nat) : Int) = j - e - 1 := by
        rw [hNat]; omega
      rw [innerLoop_brk hguard haccess hbInt]
      refine ⟨_, rfl, Or.inr ⟨b, t, _, rfl, hNat, le_refl t, ht, h1, h3, h4, hNat, ?_⟩⟩
      exact isPal_break_mirror hAB hB hbig h1 ht (by omega)
    · -- copy `min(d, best_lengths[j])`, which is the oracle value for the mirror
      have hbInt : ¬ ((palLen s (A + B - t) : Nat) : Int) = j - e - 1 := by
        intro hc; apply hNat; omega
      have harg : (j - e - 1).toNat = B - A - t := by omega
      have hv : min (B - A - t) (palLen s (A + B - t)) = palLen s (A + B + t) := by
        rcases Nat.lt_or_ge (palLen s (A + B - t)) (B - A - t) with hlt | hge
        · rw [palLen_copy_lt hAB hB hbig h1 ht hlt]; omega
        · have hgt : B - A - t < palLen s (A + B - t) := by omega
          rw [palLen_copy_gt hAB hB hbig hmax h1 ht hgt]; omega
      have hlist : b ++ [min (j - e - 1).toNat (palLen s (A + B - t))]
          = b ++ [palLen s (A + B + t)] := by
        rw [harg, hv]
      have hlen2 : (b ++ [palLen s (A + B + t)]).length = (A + B) + (t + 1) := by
        simp [List.length_append]; omega
      have hent2 : ∀ k, k < (b ++ [palLen s (A + B + t)]).length →
          (b ++ [palLen s (A + B + t)])[k]? = some (palLen s k) := by
        intro k hk
        rw [hlen2] at hk
        rcases Nat.lt_or_ge k (A + B + t) with hk2 | hk2
        · rw [List.getElem?_append_left (by omega)]
          exact h4 k (by omega)
        · have hk3 : k = A + B + t := by omega
          subst hk3
          have hc := List.getElem?_concat_length b (palLen s (A + B + t))
          rw [h3] at hc
          exact hc
      obtain ⟨r, hr, hrc⟩ := ih (t + 1) (b ++ [palLen s (A + B + t)]) e (j - 1) (by omega)
        (by omega) (by omega) he (by omega) hlen2 hent2
      rw [innerLoop_copy hguard haccess hbInt, hlist, hr]
      rcases hrc with ⟨b2, rfl, hl2, he2⟩ |
        ⟨b2, t2, dd, rfl, hdd, ht2a, ht2b, ht2c, hl2, he2, hp2, hip2⟩
      · exact ⟨(b2, none), rfl, Or.inl ⟨b2, rfl, hl2, he2⟩⟩
      · refine ⟨_, rfl, Or.inr ⟨b2, t2, _, rfl, hdd, by omega, ht2b, ht2c, hl2, he2, hp2, hip2⟩⟩

/-! ### Specification of the closing copy loop

After the main loop exits at `i = n`, the final palindrome `[A, n)` has been
appended, so the profile holds `A + n + 1` oracle entries; the loop pads it to
`2n + 1` entries, and every copied `min` is again the oracle's value. -/

theorem finalLoop_spec {s : List α} {A : Nat} (hA : A ≤ s.length)
    (hbig : IsPal s A s.length) :
    ∀ fuel t b (e j : Int), (s.length - A) + 1 - t = fuel → 1 ≤ t →
    t ≤ (s.length - A) + 1 →
    e = (2 * A : Int) - 1 →
    j = (A + s.length : Int) - t →
    b.length = (A + s.length) + t →
    (∀ k, k < b.length → b[k]? = some (palLen s k)) →
    ∃ b2, finalLoop b e j = some b2 ∧ b2.length = 2 * s.length + 1 ∧
      (∀ k, k < b2.length → b2[k]? = some (palLen s k)) := by
  intro fuel
  induction fuel with
  | zero =>
    intro t b e j hfuel h1 h2 he hj h3 h4
    have ht : t = (s.length - A) + 1 := by omega
    subst ht
    refine ⟨b, finalLoop_stop (by omega), by omega, h4⟩
  | succ fuel ih =>
    intro t b e j hfuel h1 h2 he hj h3 h4
    have ht : t ≤ s.length - A := by omega
    have hguard : ¬(j ≤ e) := by omega
    have haccess : pyGet b j = some (palLen s (A + s.length - t)) := by
      rw [pyGet_nonneg _ _ (by omega)]
      rw [show j.toNat = A + s.length - t by omega]
      exact h4 _ (by omega)
    have harg : (j - e - 1).toNat = s.length - A - t := by omega
    have hv : min (s.length - A - t) (palLen s (A + s.length - t))
        = palLen s (A + s.length + t) := (palLen_final hA hbig h1 ht).symm
    have hlist : b ++ [min (j - e - 1).toNat (palLen s (A + s.length - t))]
        = b ++ [palLen s (A + s.length + t)] := by
      rw [harg, hv]
    have hlen2 : (b ++ [palLen s (A + s.length + t)]).length = (A + s.length) + (t + 1) := by
      simp [List.length_append]; omega
    have hent2 : ∀ k, k < (b ++ [palLen s (A + s.length + t)]).length →
        (b ++ [palLen s (A + s.length + t)])[k]? = some (palLen s k) := by
      intro k hk
      rw [hlen2] at hk
      rcases Nat.lt_or_ge k (A + s.length + t) with hk2 | hk2
      · rw [List.getElem?_append_left (by omega)]
        exact h4 k (by omega)
      · have hk3 : k = A + s.length + t := by omega
        subst hk3
        have hc := List.getElem?_concat_length b (palLen s (A + s.length + t))
        rw [h3] at hc
        exact hc
    obtain ⟨b2, hb2, hl2, he2⟩ := ih (t + 1) (b ++ [palLen s (A + s.length + t)]) e (j - 1)
      (by omega) (by omega) (by omega) he (by omega) hlen2 hent2
    rw [finalLoop_step hguard haccess, hlist, hb2]
    exact ⟨b2, rfl, hl2, he2⟩

theorem mainInv_init (s : List α) : MainInv s 0 0 [] := by
  refine ⟨le_refl 0, by omega, by simp, by simp, ?_⟩
  intro x y hx hy hs
  omega

theorem mainInv_extend {s : List α} {i pal : Nat} {best : List Nat}
    (hInv : MainInv s i pal best) (hin : i < s.length) (hlt : pal < i)
    (heq : s[i - pal - 1]? = s[i]?) : MainInv s (i + 1) (pal + 2) best := by
  obtain ⟨h1, h2, h3, h4, h5⟩ := hInv
  refine ⟨by omega, by omega, by omega, h4, ?_⟩
  have hx := isPal_extend h5 (by omega) heq
  rw [show (i + 1) - (pal + 2) = i - pal - 1 by omega]
  exact hx

/-- At the emit point the working palindrome `[i - pal, i)` is maximal, and
the profile extended with the emitted `pal_len` consists of oracle values. -/
theorem mainInv_emit {s : List α} {i pal : Nat} {best : List Nat}
    (hInv : MainInv s i pal best) (_hin : i < s.length)
    (hext : ¬(pal < i ∧ s[i - pal - 1]? = s[i]?)) :
    palLen s ((i - pal) + i) = i - (i - pal) ∧
    (best ++ [pal]).length = ((i - pal) + i) + 1 ∧
    (∀ k, k < (best ++ [pal]).length → (best ++ [pal])[k]? = some (palLen s k)) := by
  obtain ⟨h1, h2, h3, h4, h5⟩ := hInv
  have hblock : ¬(0 < i - pal ∧ i < s.length ∧ s[i - pal - 1]? = s[i]?) := by
    intro hcon
    exact hext ⟨by omega, hcon.2.2⟩
  have hmax := palLen_eq_of_blocked (by omega) h2 h5 hblock
  refine ⟨hmax, by simp; omega, ?_⟩
  intro k hk
  simp only [List.length_append, List.length_cons, List.length_nil] at hk
  rcases Nat.lt_or_ge k best.length with hk2 | hk2
  · rw [List.getElem?_append_left hk2]
    exact h4 k hk2
  · have hk3 : k = best.length := by omega
    subst hk3
    rw [List.getElem?_concat_length]
    rw [show best.length = (i - pal) + i by omega, hmax]
    exact congrArg some (by omega)

theorem mainLoop_spec {s : List α} :
    ∀ q i pal best, s.length - i ≤ q → MainInv s i pal best →
    ∃ pal2 best2, mainLoop s i pal best = some (pal2, best2) ∧
      MainInv s s.length pal2 best2 := by
  intro q
  induction q with
  | zero =>
    intro i pal best hq hInv
    obtain ⟨h1, h2, h3, h4, h5⟩ := hInv
    have hi : i = s.length := by omega
    subst hi
    exact ⟨pal, best, mainLoop_exit (by omega), h1, le_refl _, h3, h4, h5⟩
  | succ q ihq =>
    intro i pal
    induction pal using Nat.strong_induction_on
    next pal ihp =>
    intro best hq hInv
    by_cases hin : i < s.length
    · by_cases hext : pal < i ∧ s[i - pal - 1]? = s[i]?
      · rw [mainLoop_extend hin hext]
        exact ihq (i + 1) (pal + 2) best (by omega) (mainInv_extend hInv hin hext.1 hext.2)
      · obtain ⟨hmax, hlen1, hent1⟩ := mainInv_emit hInv hin hext
        obtain ⟨h1, h2, h3, h4, h5⟩ := hInv
        obtain ⟨r, hr, hrc⟩ := innerLoop_spec (A := i - pal) (B := i) (by omega) h2 h5 hmax
          (i - (i - pal)) 1 (best ++ [pal])
          (((best ++ [pal]).length : Int) - 2 - pal) (((best ++ [pal]).length : Int) - 2)
          (by omega) (le_refl 1) (by omega) (by omega) (by omega) hlen1 hent1
        rw [mainLoop_emit hin hext, hr]
        rcases hrc with ⟨b2, rfl, hl2, he2⟩ |
          ⟨b2, t2, dd, rfl, hdd, ht2a, ht2b, ht2c, hl2, he2, hp2, hip2⟩
        · -- normal completion of the scan: `pal_len = 1`, cursor advances
          have hInv2 : MainInv s (i + 1) 1 b2 := by
            refine ⟨by omega, by omega, by omega, he2, ?_⟩
            intro x y hx hy hs
            have hxy : x = y := by omega
            rw [hxy]
          obtain ⟨pal2, best2, hm, hI⟩ := ihq (i + 1) 1 b2 (by omega) hInv2
          exact ⟨pal2, best2, hm, hI⟩
        · -- exact-match break: new radius `d < pal`, cursor unchanged
          have hInv2 : MainInv s i dd.val b2 := by
            refine ⟨by omega, h2, by omega, he2, ?_⟩
            rw [show i - dd.val = (i - pal) + t2 by omega]
            exact hip2
          have hlt : dd.val < pal := by omega
          obtain ⟨pal2, best2, hm, hI⟩ := ihp dd.val hlt b2 (by omega) hInv2
          exact ⟨pal2, best2, hm, hI⟩
    · obtain ⟨h1, h2, h3, h4, h5⟩ := hInv
      have hi : i = s.length := by omega
      subst hi
      exact ⟨pal, best, mainLoop_exit (by omega), h1, le_refl _, h3, h4, h5⟩

/-! ### The oracle's entries, and the equivalence of the two implementations -/

theorem naive_length (s : List α) : (naiveLongestPalindromes s).length = 2 * s.length + 1 := by
  simp [naiveLongestPalindromes]

theorem naive_getElem {s : List α} {k : Nat} (hk : k < 2 * s.length + 1) :
    (naiveLongestPalindromes s)[k]? = some (palLen s k) := by
  unfold naiveLongestPalindromes
  rw [List.getElem?_map, List.getElem?_range hk]
  rfl

theorem fast_eq_naive (s : List α) :
    fastLongestPalindromes s = some (naiveLongestPalindromes s) := by
  obtain ⟨pal, best, hm, hI⟩ :=
    mainLoop_spec (s := s) s.length 0 0 [] (by omega) (mainInv_init s)
  obtain ⟨h1, h2, h3, h4, h5⟩ := hI
  have hblock : ¬(0 < s.length - pal ∧ s.length < s.length ∧
      s[s.length - pal - 1]? = s[s.length]?) := by
    intro hcon
    exact absurd hcon.2.1 (lt_irrefl _)
  have hmax := palLen_eq_of_blocked (by omega) (le_refl _) h5 hblock
  have hlen1 : (best ++ [pal]).length = ((s.length - pal) + s.length) + 1 := by
    simp
    omega
  have hent1 : ∀ k, k < (best ++ [pal]).length → (best ++ [pal])[k]? = some (palLen s k) := by
    intro k hk
    rcases Nat.lt_or_ge k best.length with hk2 | hk2
    · rw [List.getElem?_append_left hk2]
      exact h4 k hk2
    · have hk3 : k = best.length := by
        rw [hlen1] at hk
        omega
      subst hk3
      rw [List.getElem?_concat_length]
      rw [show best.length = (s.length - pal) + s.length by omega, hmax]
      exact congrArg some (by omega)
  obtain ⟨b2, hb2, hl2, he2⟩ := finalLoop_spec (A := s.length - pal) (by omega) h5
    (s.length - (s.length - pal)) 1 (best ++ [pal])
    ((((best ++ [pal]).length : Int) - 2) - ((2 * s.length + 1 : Int) - (best ++ [pal]).length))
    (((best ++ [pal]).length : Int) - 2)
    (by omega) (le_refl 1) (by omega) (by omega) (by omega) (by omega) hent1
  have hb2n : b2 = naiveLongestPalindromes s := by
    apply List.ext_getElem?
    intro k
    rcases Nat.lt_or_ge k (2 * s.length + 1) with hk | hk
    · rw [he2 k (by omega), naive_getElem hk]
    · rw [List.getElem?_eq_none (by omega),
        List.getElem?_eq_none (by rw [naive_length]; omega)]
  have hfinal : finalLoop (best ++ [pal])
      ((((best ++ [pal]).length : Int) - 2) - ((2 * s.length + 1 : Int) - (best ++ [pal]).length))
      (((best ++ [pal]).length : Int) - 2) = some (naiveLongestPalindromes s) := by
    rw [hb2, hb2n]
  unfold fastLongestPalindromes
  rw [hm]
  exact hfinal

/-! ### Invariants of all reachable main-loop states -/

theorem mainReaches_inv {s : List α} {st : Nat × Nat × List Nat}
    (h : MainReaches s st) : MainInv s st.1 st.2.1 st.2.2 := by
  induction h with
  | init => exact mainInv_init s
  | step hr hstep ih =>
    cases hstep with
    | extend hin hlt heq =>
      rename_i i pal best
      exact mainInv_extend ih hin hlt heq
    | mirrorBreak hin hext hinner =>
      rename_i i pal best b d
      have ih2 : MainInv s i pal best := ih
      obtain ⟨hmax, hlen1, hent1⟩ := mainInv_emit ih2 hin hext
      obtain ⟨h1, h2, h3, h4, h5⟩ := ih2
      obtain ⟨r, hrq, hrc⟩ := innerLoop_spec (A := i - pal) (B := i) (by omega) h2 h5 hmax
        (i - (i - pal)) 1 (best ++ [pal])
        (((best ++ [pal]).length : Int) - 2 - pal) (((best ++ [pal]).length : Int) - 2)
        (by omega) (le_refl 1) (by omega) (by omega) (by omega) hlen1 hent1
      rw [hinner] at hrq
      injection hrq with hrq
      subst hrq
      rcases hrc with ⟨b2, hcon, _, _⟩ |
        ⟨b2, t2, dd, hcon, hdd, ht2a, ht2b, ht2c, hl2, he2, hp2, hip2⟩
      · injection hcon with hbcon hocon
        exact Option.noConfusion hocon
      · injection hcon with hbcon hocon
        injection hocon with hocon
        subst hbcon
        subst hocon
        show MainInv s i d.val b
        refine ⟨by omega, h2, by omega, he2, ?_⟩
        rw [show i - d.val = (i - pal) + t2 by omega]
        exact hip2
    | advance hin hext hinner =>
      rename_i i pal best b
      have ih2 : MainInv s i pal best := ih
      obtain ⟨hmax, hlen1, hent1⟩ := mainInv_emit ih2 hin hext
      obtain ⟨h1, h2, h3, h4, h5⟩ := ih2
      obtain ⟨r, hrq, hrc⟩ := innerLoop_spec (A := i - pal) (B := i) (by omega) h2 h5 hmax
        (i - (i - pal)) 1 (best ++ [pal])
        (((best ++ [pal]).length : Int) - 2 - pal) (((best ++ [pal]).length : Int) - 2)
        (by omega) (le_refl 1) (by omega) (by omega) (by omega) hlen1 hent1
      rw [hinner] at hrq
      injection hrq with hrq
      subst hrq
      rcases hrc with ⟨b2, hcon, hl2, he2⟩ | ⟨b2, t2, dd, hcon, _⟩
      · injection hcon with hbcon hocon
        subst hbcon
        show MainInv s (i + 1) 1 b
        refine ⟨by omega, by omega, by omega, he2, ?_⟩
        intro x y hx hy hs
        have hxy : x = y := by omega
        rw [hxy]
      · injection hcon with hbcon hocon
        exact Option.noConfusion hocon

/-! ### Substrings, reversal, and uniform sequences -/

theorem subseq_length {s : List α} {a m : Nat} (h : a + m ≤ s.length) :
    (subseq s a m).length = m := by
  simp [subseq]
  omega

theorem subseq_getElem {s : List α} {a m i : Nat} (him : i < m) :
    (subseq s a m)[i]? = s[a + i]? := by
  unfold subseq
  rw [List.getElem?_take_of_lt him, List.getElem?_drop]

theorem subseq_palindrome_iff {s : List α} {a m : Nat} (h : a + m ≤ s.length) :
    subseq s a m = (subseq s a m).reverse ↔ IsPal s a (a + m) := by
  constructor
  · intro heq x y hx hy hs
    have hxm : x - a < m := by omega
    have hym : y - a < m := by omega
    have h1 : (subseq s a m)[x - a]? = s[x]? := by
      rw [subseq_getElem hxm]
      congr 1
      omega
    have h2 : (subseq s a m)[y - a]? = s[y]? := by
      rw [subseq_getElem hym]
      congr 1
      omega
    rw [← h1, ← h2]
    conv_lhs => rw [heq]
    rw [List.getElem?_reverse (by rw [subseq_length h]; omega)]
    rw [subseq_length h]
    congr 1
    omega
  · intro hp
    apply List.ext_getElem?
    intro i
    rcases Nat.lt_or_ge i m with him | him
    · rw [subseq_getElem him]
      rw [List.getElem?_reverse (by rw [subseq_length h]; omega), subseq_length h]
      rw [subseq_getElem (by omega)]
      exact hp (a + i) (a + (m - 1 - i)) (by omega) (by omega) (by omega)
    · rw [List.getElem?_eq_none (by rw [subseq_length h]; omega),
        List.getElem?_eq_none (by rw [List.length_reverse, subseq_length h]; omega)]

theorem isPal_reverse {s : List α} {a b : Nat} (hab : a ≤ b) (hb : b ≤ s.length)
    (hp : IsPal s a b) : IsPal s.reverse (s.length - b) (s.length - a) := by
  intro x y hx hy hs
  have hxn : x < s.length := by omega
  have hyn : y < s.length := by omega
  rw [List.getElem?_reverse hxn, List.getElem?_reverse hyn]
  exact hp (s.length - 1 - x) (s.length - 1 - y) (by omega) (by omega) (by omega)

theorem palLen_reverse {s : List α} {k : Nat} (hk : k ≤ 2 * s.length) :
    palLen s.reverse k = palLen s (2 * s.length - k) := by
  apply Nat.le_antisymm
  · obtain ⟨a, b, h1, h2, h3, h4, h5, _⟩ :=
      palLen_spec (s := s.reverse) (k := k) (by rw [List.length_reverse]; omega)
    rw [List.length_reverse] at h3
    have hp := isPal_reverse h2 (by rw [List.length_reverse]; omega) h5
    rw [List.reverse_reverse, List.length_reverse] at hp
    have hub := palLen_ub (a := s.length - b) (b := s.length - a) (by omega) (by omega) hp
    rw [show (s.length - b) + (s.length - a) = 2 * s.length - k by omega] at hub
    omega
  · obtain ⟨a, b, h1, h2, h3, h4, h5, _⟩ := palLen_spec (s := s) (k := 2 * s.length - k)
      (by omega)
    have hp := isPal_reverse h2 h3 h5
    have hub := palLen_ub (a := s.length - b) (b := s.length - a) (by omega)
      (by rw [List.length_reverse]; omega) hp
    rw [show (s.length - b) + (s.length - a) = k by omega] at hub
    omega

theorem naive_reverse (s : List α) :
    naiveLongestPalindromes s.reverse = (naiveLongestPalindromes s).reverse := by
  apply List.ext_getElem?
  intro k
  rcases Nat.lt_or_ge k (2 * s.length + 1) with hk | hk
  · rw [naive_getElem (by rw [List.length_reverse]; omega)]
    rw [List.getElem?_reverse (by rw [naive_length]; omega), naive_length]
    rw [show 2 * s.length + 1 - 1 - k = 2 * s.length - k by omega]
    rw [naive_getElem (by omega)]
    rw [palLen_reverse (by omega)]
  · rw [List.getElem?_eq_none (by rw [naive_length, List.length_reverse]; omega),
      List.getElem?_eq_none (by rw [List.length_reverse, naive_length]; omega)]

theorem palLen_replicate {m : Nat} {c : α} {k : Nat} (hk : k ≤ 2 * m) :
    palLen (List.replicate m c) k = min k (2 * m - k) := by
  have hlen : (List.replicate m c).length = m := List.length_replicate m c
  apply Nat.le_antisymm
  · have hb := palLen_bounds (s := List.replicate m c) (k := k) (by omega)
    omega
  · have hp : IsPal (List.replicate m c) (k - m) (min k m) := by
      intro x y hx hy hs
      have hx2 : x < m := by omega
      have hy2 : y < m := by omega
      rw [List.getElem?_replicate, List.getElem?_replicate, if_pos hx2, if_pos hy2]
    have hub := palLen_ub (a := k - m) (b := min k m) (by omega) (by omega) hp
    rw [show (k - m) + min k m = k by omega] at hub
    omega

theorem foldr_max_le {l : List Nat} {m : Nat} (h : ∀ v ∈ l, v ≤ m) :
    l.foldr max 0 ≤ m := by
  induction l with
  | nil => simp
  | cons a l ih =>
    simp only [List.foldr_cons]
    have h1 := h a (List.mem_cons_self a l)
    have h2 := ih fun v hv => h v (List.mem_cons_of_mem a hv)
    omega

theorem foldr_max_eq {l : List Nat} {m : Nat} (hub : ∀ v ∈ l, v ≤ m) (hmem : m ∈ l) :
    l.foldr max 0 = m := by
  induction l with
  | nil => cases hmem
  | cons a l ih =>
    simp only [List.foldr_cons]
    rcases List.mem_cons.mp hmem with rfl | hm
    · have := foldr_max_le fun v hv => hub v (List.mem_cons_of_mem _ hv)
      omega
    · have h1 := ih (fun v hv => hub v (List.mem_cons_of_mem a hv)) hm
      have h2 := hub a (List.mem_cons_self a l)
      omega

/-! ### The claims -/

/-- Claim C1: for every finite sequence `s` (over any element type supporting
equality), `fast_longest_palindromes s` returns exactly the same list as
`naive_longest_palindromes s` (and in particular raises no index error). -/
theorem fast_equals_naive_oracle (s : List α) :
    fastLongestPalindromes s = some (naiveLongestPalindromes s) :=
  fast_eq_naive s

/-- Claim C2: every entry `profile[k]` of `naive_longest_palindromes s` is the
length of the longest palindrome at center `k`: the substring of `s` at
positions `[k/2 - v/2, k/2 - v/2 + v)` equals its own reverse, extending it by
one element on each side (when both extensions are in bounds) breaks the
palindrome property, and every palindromic interval `[a, b)` centered at `k`
(i.e. with `a + b = k` — odd intervals for odd `k`, even-length gap-centered
intervals for even `k`) has width at most `v`. -/
theorem naive_profile_entry_maximal_palindrome (s : List α) (k : Nat)
    (hk : k < 2 * s.length + 1) :
    ∃ v, (naiveLongestPalindromes s)[k]? = some v ∧
      subseq s (k / 2 - v / 2) v = (subseq s (k / 2 - v / 2) v).reverse ∧
      (1 ≤ k / 2 - v / 2 → k / 2 - v / 2 + v < s.length →
        subseq s (k / 2 - v / 2 - 1) (v + 2) ≠
          (subseq s (k / 2 - v / 2 - 1) (v + 2)).reverse) ∧
      (∀ a b, a + b = k → a ≤ b → b ≤ s.length → IsPal s a b → b - a ≤ v) := by
  obtain ⟨a, b, h1, h2, h3, h4, h5, h6⟩ := palLen_spec (s := s) (k := k) (by omega)
  have hpar := (palLen_bounds (s := s) (k := k) (by omega)).2.2
  refine ⟨palLen s k, naive_getElem hk, ?_, ?_, ?_⟩
  · have hav : k / 2 - palLen s k / 2 = a := by omega
    rw [hav]
    refine (subseq_palindrome_iff (by omega)).mpr ?_
    rw [show a + palLen s k = b by omega]
    exact h5
  · intro hge hlt
    have hav : k / 2 - palLen s k / 2 = a := by omega
    rw [hav] at hge hlt ⊢
    intro heq
    have hp2 := (subseq_palindrome_iff (by omega)).mp heq
    have hend : s[a - 1]? = s[b]? := hp2 (a - 1) b (le_refl _) (by omega) (by omega)
    exact h6 (by omega) (by omega) hend
  · intro a2 b2 hs2 hab2 hb2 hp2
    have hub := palLen_ub hab2 hb2 hp2
    rw [hs2] at hub
    exact hub

/-- Witness for C2 at the concrete input `"aba"`, center index `3`. -/
theorem naive_profile_entry_maximal_palindrome_witness :
    3 < 2 * (['a', 'b', 'a'] : List Char).length + 1 ∧
    (∃ v, (naiveLongestPalindromes (['a', 'b', 'a'] : List Char))[3]? = some v ∧
      subseq (['a', 'b', 'a'] : List Char) (3 / 2 - v / 2) v =
        (subseq (['a', 'b', 'a'] : List Char) (3 / 2 - v / 2) v).reverse ∧
      (1 ≤ 3 / 2 - v / 2 → 3 / 2 - v / 2 + v < (['a', 'b', 'a'] : List Char).length →
        subseq (['a', 'b', 'a'] : List Char) (3 / 2 - v / 2 - 1) (v + 2) ≠
          (subseq (['a', 'b', 'a'] : List Char) (3 / 2 - v / 2 - 1) (v + 2)).reverse) ∧
      (∀ a b, a + b = 3 → a ≤ b → b ≤ (['a', 'b', 'a'] : List Char).length →
        IsPal (['a', 'b', 'a'] : List Char) a b → b - a ≤ v)) :=
  ⟨by decide, naive_profile_entry_maximal_palindrome (['a', 'b', 'a'] : List Char) 3 (by decide)⟩

/-- Claim C3: for every finite sequence of length `n ≥ 0`,
`fast_longest_palindromes` succeeds (no index error) and returns a list of
exactly `2 n + 1` natural numbers; for the empty sequence it returns `[0]`. -/
theorem fast_total_length_and_empty :
    (∀ s : List α, ∃ l, fastLongestPalindromes s = some l ∧ l.length = 2 * s.length + 1) ∧
    fastLongestPalindromes ([] : List α) = some [0] := by
  constructor
  · intro s
    exact ⟨naiveLongestPalindromes s, fast_eq_naive s, naive_length s⟩
  · rw [fast_eq_naive]
    simp [naiveLongestPalindromes, naiveExpand, List.range_succ]

/-- Claim C4: `fast_longest_palindromes` terminates on every finite input:
the main loop completes (it is definable by well-founded recursion on
`(n - i, pal_len)` and returns a value), the finalization loop completes, and
the result has exactly `2 n + 1` entries. -/
theorem fast_terminates_full_profile (s : List α) :
    (∃ pb, mainLoop s 0 0 [] = some pb) ∧
    (∃ l, fastLongestPalindromes s = some l ∧ l.length = 2 * s.length + 1) := by
  obtain ⟨pal2, best2, hm, _⟩ :=
    mainLoop_spec (s := s) s.length 0 0 [] (by omega) (mainInv_init s)
  exact ⟨⟨(pal2, best2), hm⟩, naiveLongestPalindromes s, fast_eq_naive s, naive_length s⟩

/-- Claim C5: in every reachable state of the main loop of
`fast_longest_palindromes`, the `pal_len` elements ending just before the
cursor form a palindrome, the profile length is at least `2 i - pal_len`, and
the profile length is less than `2 i + 1`. -/
theorem main_loop_invariants_hold (s : List α) (i pal : Nat) (best : List Nat)
    (h : MainReaches s (i, pal, best)) :
    IsPal s (i - pal) i ∧ 2 * i ≤ best.length + pal ∧ best.length < 2 * i + 1 := by
  have hI : MainInv s i pal best := mainReaches_inv h
  obtain ⟨h1, h2, h3, h4, h5⟩ := hI
  exact ⟨h5, by omega, by omega⟩

/-- Witness for C5 at the initial state of the loop on `"ab"`. -/
theorem main_loop_invariants_hold_witness :
    MainReaches (['a', 'b'] : List Char) (0, 0, []) ∧
    (IsPal (['a', 'b'] : List Char) (0 - 0) 0 ∧ 2 * 0 ≤ ([] : List Nat).length + 0 ∧
      ([] : List Nat).length < 2 * 0 + 1) :=
  ⟨MainReaches.init, main_loop_invariants_hold (['a', 'b'] : List Char) 0 0 [] MainReaches.init⟩

/-- Claim C6: the returned profile has `profile[0] = 0` and `profile[2n] = 0`,
for both implementations. -/
theorem profile_boundary_entries_zero (s : List α) :
    (naiveLongestPalindromes s)[0]? = some 0 ∧
    (naiveLongestPalindromes s)[2 * s.length]? = some 0 ∧
    ∃ l, fastLongestPalindromes s = some l ∧ l[0]? = some 0 ∧
      l[2 * s.length]? = some 0 := by
  have hz : palLen s 0 = 0 := by
    have := palLen_bounds (s := s) (k := 0) (by omega)
    omega
  have hn : palLen s (2 * s.length) = 0 := by
    have := palLen_bounds (s := s) (k := 2 * s.length) (le_refl _)
    omega
  refine ⟨?_, ?_, naiveLongestPalindromes s, fast_eq_naive s, ?_, ?_⟩
  · rw [naive_getElem (by omega), hz]
  · rw [naive_getElem (by omega), hn]
  · rw [naive_getElem (by omega), hz]
  · rw [naive_getElem (by omega), hn]

/-- Claim C7: every returned entry satisfies `profile[k] % 2 = k % 2`, for
both implementations. -/
theorem profile_entry_parity (s : List α) (k v : Nat)
    (h : (naiveLongestPalindromes s)[k]? = some v ∨
      (∃ l, fastLongestPalindromes s = some l ∧ l[k]? = some v)) :
    v % 2 = k % 2 := by
  have hn : (naiveLongestPalindromes s)[k]? = some v := by
    rcases h with h | ⟨l, hl, hv⟩
    · exact h
    · rw [fast_eq_naive] at hl
      injection hl with hl
      rw [← hl] at hv
      exact hv
  have hk : k < (naiveLongestPalindromes s).length := by
    by_contra hc
    push_neg at hc
    rw [List.getElem?_eq_none hc] at hn
    exact Option.noConfusion hn
  rw [naive_length] at hk
  rw [naive_getElem (by omega)] at hn
  injection hn with hn
  have hb := (palLen_bounds (s := s) (k := k) (by omega)).2.2
  omega

/-- Witness for C7 at the input `"a"`, index `1`, entry `1`. -/
theorem profile_entry_parity_witness :
    ((naiveLongestPalindromes (['a'] : List Char))[1]? = some 1 ∨
      (∃ l, fastLongestPalindromes (['a'] : List Char) = some l ∧ l[1]? = some 1)) ∧
    1 % 2 = 1 % 2 :=
  ⟨Or.inl (by decide), profile_entry_parity (['a'] : List Char) 1 1 (Or.inl (by decide))⟩

/-- Claim C8: for a sequence of `m` identical elements, the maximum entry of
the returned profile is exactly `m` (for both implementations; the spec's
10,000-element scenario is the instance `m = 10000`). -/
theorem replicate_profile_max (m : Nat) (c : α) :
    ∃ l, fastLongestPalindromes (List.replicate m c) = some l ∧
      naiveLongestPalindromes (List.replicate m c) = l ∧ l.foldr max 0 = m := by
  refine ⟨naiveLongestPalindromes (List.replicate m c), fast_eq_naive _, rfl, ?_⟩
  apply foldr_max_eq
  · intro v hv
    obtain ⟨n, hn⟩ := List.mem_iff_getElem?.mp hv
    have hk : n < (naiveLongestPalindromes (List.replicate m c)).length := by
      by_contra hc
      push_neg at hc
      rw [List.getElem?_eq_none hc] at hn
      exact Option.noConfusion hn
    rw [naive_length, List.length_replicate] at hk
    rw [naive_getElem (by rw [List.length_replicate]; omega)] at hn
    injection hn with hn
    rw [palLen_replicate (by omega)] at hn
    omega
  · apply List.mem_iff_getElem?.mpr
    refine ⟨m, ?_⟩
    rw [naive_getElem (by rw [List.length_replicate]; omega)]
    rw [palLen_replicate (by omega)]
    exact congrArg some (by omega)

/-- Claim C9: both implementations reproduce the spec's literal scenarios:
`"ababa"`, `"yabbadabbadoo"`, and the empty string. -/
theorem literal_scenarios :
    naiveLongestPalindromes (['a', 'b', 'a', 'b', 'a'] : List Char) =
      [0, 1, 0, 3, 0, 5, 0, 3, 0, 1, 0] ∧
    fastLongestPalindromes (['a', 'b', 'a', 'b', 'a'] : List Char) =
      some [0, 1, 0, 3, 0, 5, 0, 3, 0, 1, 0] ∧
    naiveLongestPalindromes
        (['y', 'a', 'b', 'b', 'a', 'd', 'a', 'b', 'b', 'a', 'd', 'o', 'o'] : List Char) =
      [0, 1, 0, 1, 0, 1, 4, 1, 0, 1, 0, 9, 0, 1, 0, 1, 6, 1, 0, 1, 0, 1, 0, 1, 2, 1, 0] ∧
    fastLongestPalindromes
        (['y', 'a', 'b', 'b', 'a', 'd', 'a', 'b', 'b', 'a', 'd', 'o', 'o'] : List Char) =
      some [0, 1, 0, 1, 0, 1, 4, 1, 0, 1, 0, 9, 0, 1, 0, 1, 6, 1, 0, 1, 0, 1, 0, 1, 2, 1, 0] ∧
    naiveLongestPalindromes ([] : List Char) = [0] ∧
    fastLongestPalindromes ([] : List Char) = some [0] := by
  refine ⟨by decide, ?_, by decide, ?_, by decide, ?_⟩ <;>
    rw [fast_eq_naive] <;> exact congrArg some (by decide)

/-- Claim C10: reversal symmetry: the oracle profile of the reversed sequence
is the reverse of the oracle profile, and by oracle equivalence the fast
engine satisfies the same law. -/
theorem reversal_symmetry (s : List α) :
    naiveLongestPalindromes s.reverse = (naiveLongestPalindromes s).reverse ∧
    fastLongestPalindromes s.reverse = some ((naiveLongestPalindromes s).reverse) := by
  refine ⟨naive_reverse s, ?_⟩
  rw [fast_eq_naive, naive_reverse]

end LongestPalindromes
